import Mathlib

/-!
Verification of the fork-benchmarking harness (`src/main.rs`, `src/threading.rs`).

The development shallowly embeds the program: machine `u64` values are
naturals reduced modulo `2 ^ 64` where wraparound matters, the process-wide
`SHARED_MEMORY` pointer is an `Option Statistics` (`none` = null), Rust
`assert!` failures become `Except.error`, and the concurrent updates that the
worker processes perform on the shared `Statistics` region are modelled as an
arbitrary interleaving (permutation) of the atomic events each worker issues.
The floating-point test-matrix loops of `main` are embedded over `ℚ` with the
per-axis multiplicative step as a parameter, and `f64 as u64`/`as usize`
truncation-with-saturation as `Nat.floor`.
-/

namespace ForkBench

/-- Modulus of `u64` arithmetic. -/
def M64 : ℕ := 2 ^ 64

/-- Statistics for syncing between children in shared memory
(`struct Statistics` in `main.rs`): `vm_cycles : AtomicU64` and
`workers : AtomicU64`, both held as their `u64` value. -/
structure Statistics where
  vm_cycles : ℕ
  workers   : ℕ
deriving DecidableEq, Repr

/-- `Statistics::default()`: both atomics zero. -/
def Statistics.default : Statistics := ⟨0, 0⟩

/-- Location where shared memory was mapped (`SHARED_MEMORY : AtomicPtr`),
`none` standing for the initial null pointer. -/
def initialSharedMemory : Option Statistics := none

/-- `create_shared_memory()`: maps the region and stores its (non-null)
address, the region being initialized to `Statistics::default()`. -/
def create_shared_memory (_sm : Option Statistics) : Option Statistics :=
  some Statistics.default

/-- `shared_memory()`: loads the pointer, `assert!(!sm.is_null())`, and
returns the pointed-to region. -/
def shared_memory (sm : Option Statistics) : Except String Statistics :=
  match sm with
  | none => .error "assertion failed: !sm.is_null()"
  | some s => .ok s

/-- `reset_shared_memory()`: loads the pointer, `assert!(!sm.is_null())`,
and overwrites the region with `Statistics::default()`. -/
def reset_shared_memory (sm : Option Statistics) : Except String Statistics :=
  match sm with
  | none => .error "assertion failed: !sm.is_null()"
  | some _ => .ok Statistics.default

/-- Atomic operations the worker processes perform on the shared region:
`enter` is `workers.fetch_add(1, SeqCst)` (main.rs:147), `exitWorker` is
`workers.fetch_sub(1, SeqCst)` (main.rs:195), and `addCycles c` is
`vm_cycles.fetch_add(c, Relaxed)` performed by a trial sub-process that
measured `c` elapsed cycles (main.rs:181). -/
inductive Event where
  | enter : Event
  | exitWorker : Event
  | addCycles : ℕ → Event
deriving DecidableEq, Repr

/-- Effect of one atomic event on the shared region, with `u64` wraparound:
`fetch_sub(1)` on a `u64` adds `2 ^ 64 - 1` modulo `2 ^ 64`. -/
def applyEvent (s : Statistics) : Event → Statistics
  | .enter => { s with workers := (s.workers + 1) % M64 }
  | .exitWorker => { s with workers := (s.workers + (M64 - 1)) % M64 }
  | .addCycles c => { s with vm_cycles := (s.vm_cycles + c) % M64 }

/-- Run a sequence of atomic events against the shared region. -/
def runEvents (s : Statistics) (evs : List Event) : Statistics :=
  evs.foldl applyEvent s

/-- Shared-memory trace of one worker process (main.rs:147-198): it
increments `workers` on entry, publishes the elapsed cycles of each of its
trial sub-processes in order, and decrements `workers` on exit. -/
def workerTrace (trials : List ℕ) : List Event :=
  Event.enter :: (trials.map Event.addCycles ++ [Event.exitWorker])

/-- Postcondition check after the join, `assert!(shmem.workers.load(SeqCst)
== 0)` (main.rs:217): a nonzero residual aborts the run. -/
def workersCheck (s : Statistics) : Except String Unit :=
  if s.workers = 0 then .ok () else .error "assertion failed: workers == 0"

/-- Net effect of one event on the `workers` counter, modulo `2 ^ 64`. -/
def workerDelta : Event → ℕ
  | .enter => 1
  | .exitWorker => M64 - 1
  | .addCycles _ => 0

/-- Amount one event adds to the `vm_cycles` accumulator. -/
def cycleDelta : Event → ℕ
  | .enter => 0
  | .exitWorker => 0
  | .addCycles c => c

/-- Strict ordering on `(u64, u64)` pairs used by the `BTreeSet<(u64, u64)>`
holding the tests: lexicographic on (thread_count, workload_size). -/
def pairLT (a b : ℕ × ℕ) : Prop :=
  a.1 < b.1 ∨ (a.1 = b.1 ∧ a.2 < b.2)

instance instDecPairLT : DecidableRel pairLT := fun a b =>
  decidable_of_iff (a.1 < b.1 ∨ (a.1 = b.1 ∧ a.2 < b.2)) Iff.rfl

/-- Ordered insert into the sorted, duplicate-free list modelling
`BTreeSet::insert` (main.rs:111): a pair already present is not inserted
again. -/
def insertPair (p : ℕ × ℕ) : List (ℕ × ℕ) → List (ℕ × ℕ)
  | [] => [p]
  | q :: rest =>
    if pairLT p q then p :: q :: rest
    else if p = q then q :: rest
    else q :: insertPair p rest

/-- One logscale axis of the test matrix (the `threads` loop of
main.rs:93-113, and identically the inner `target_workload` loop): starting
from `value = 1.0`, while the integer truncation of `value` is below `maxV`,
record the truncation as a sample and multiply `value` by `scale`. The
`f64` running value is embedded as an exact rational, `as u64` / `as usize`
truncation (toward zero, saturating at 0 below zero) as `Nat.floor`, and the
while loop carries explicit fuel. -/
def axisLoop (scale : ℚ) (maxV : ℕ) : ℕ → ℚ → List ℕ
  | 0, _ => []
  | fuel + 1, value =>
    if ⌊value⌋₊ < maxV then
      ⌊value⌋₊ :: axisLoop scale maxV fuel (value * scale)
    else []

/-- The generated test matrix of `main` (main.rs:92-113): every
`(num_threads, workload)` pair produced by the two nested logscale loops,
inserted into the ordered set in program order. `thrscale` and `wlscale`
are the per-axis multiplicative steps (`MAX as f64 powf (1 / SAMPLES)` in
the source). -/
def buildTests (thrscale wlscale : ℚ) (maxT maxW fuelT fuelW : ℕ) :
    List (ℕ × ℕ) :=
  ((axisLoop thrscale maxT fuelT 1).map (fun t =>
    (axisLoop wlscale maxW fuelW 1).map (fun w => (t, w)))).flatten.foldl
      (fun acc p => insertPair p acc) []

/-- Wrapping `u64` subtraction `endC - startC` as performed on the two
`rdtsc()` readings (main.rs:213), for operands below `2 ^ 64`. -/
def elapsedCycles (endC startC : ℕ) : ℕ :=
  (endC + (M64 - startC)) % M64

/-- The output line of one test case (main.rs:219-223): thread count, the
accounting size `workload * (16 + 2)`, and the normalized metric
`vm_cycles / (elapsed_cycles * num_threads)`, the `f64` quotient embedded
as an exact rational. -/
def emitLine (num_threads workload : ℕ) (s : Statistics)
    (startC endC : ℕ) : ℕ × ℕ × ℚ :=
  (num_threads, workload * (16 + 2),
    (s.vm_cycles : ℚ) / ((elapsedCycles endC startC : ℚ) * (num_threads : ℚ)))

/-- Top-level worker fork check, `assert!(child != -1)` (main.rs:130-131):
the run continues exactly when this is `true` and aborts otherwise. -/
def forkAssertTop (child : Int) : Bool := child != -1

/-- Per-trial fork check inside a worker, `assert!(subchild != 1)`
(main.rs:154-155): the worker continues exactly when this is `true` and
aborts otherwise. -/
def forkAssertSub (subchild : Int) : Bool := subchild != 1

/-- Logical-processor descriptor (`NumaInfo` in threading.rs), flattening
the `PROCESSOR_NUMBER` (group, number; the always-zero `Reserved` byte is
dropped) together with the NUMA node id. -/
structure NumaInfo where
  group : ℕ
  number : ℕ
  numa_id : ℕ
deriving DecidableEq, Repr

/-- `NumaInfo::default()`: all fields zero. -/
def NumaInfo.default : NumaInfo := ⟨0, 0, 0⟩

/-- Linux `get_logical_processors` (threading.rs:84-97): reads
`/proc/cpuinfo` (`none` models a failed read, which panics via `expect`;
otherwise the file is given as its list of lines, each line as its list of
characters) and pushes one default descriptor per line starting with
"processor". This path performs no emptiness check on the result. -/
def get_logical_processors_linux (cpuinfo : Option (List (List Char))) :
    Except String (List NumaInfo) :=
  match cpuinfo with
  | none => .error "Failed to read CPU info"
  | some lines =>
      .ok (lines.foldl
        (fun ret line =>
          if List.isPrefixOf "processor".toList line then
            ret ++ [NumaInfo.default]
          else ret) [])

/-- Windows `get_numa_node_id` (threading.rs:136-153): `raw` models the
`GetNumaProcessorNodeEx` call on (group, number) — `none` when the call
returns false, `some v` when it writes `v`; a written value of `MAXUSHORT`
(65535) means the processor does not exist. -/
def get_numa_node_id (raw : ℕ → ℕ → Option ℕ) (group number : ℕ) :
    Option ℕ :=
  match raw group number with
  | none => none
  | some v => if v = 65535 then none else some v

/-- Windows `get_logical_processors` (threading.rs:100-133): probes groups
`0..64` and numbers `0..64`, keeps each processor whose NUMA node resolves,
then checks `assert!(ret.len() >= 1)`. -/
def get_logical_processors_windows (raw : ℕ → ℕ → Option ℕ) :
    Except String (List NumaInfo) :=
  let ret := ((List.range 64).map (fun group =>
    (List.range 64).filterMap (fun number =>
      (get_numa_node_id raw group number).map
        (fun id => ⟨group, number, id⟩)))).flatten
  if ret.length ≥ 1 then .ok ret
  else .error "assertion failed: ret.len() >= 1"

/-- A probe environment for the Windows enumeration in which exactly the
processor (group 0, number 0) exists, on NUMA node 0. -/
def raw0 : ℕ → ℕ → Option ℕ := fun group number =>
  if group = 0 ∧ number = 0 then some 0 else none

/-- Width of `usize` in bits on the benchmark's 64-bit Linux target,
`std::mem::size_of::<usize>() * 8`. -/
def usizeBits : ℕ := 8 * 8

/-- Length of the `[0usize; 1024 / (size_of::<usize>() * 8)]` affinity
bitmask array of the Linux `pin_to_logical_processor` (threading.rs:67). -/
def bitmaskLen : ℕ := 1024 / usizeBits

/-- Word index `core_id / (size_of::<usize>() * 8)` (threading.rs:69). -/
def usize_idx (core_id : ℕ) : ℕ := core_id / usizeBits

/-- Bit index `core_id % (size_of::<usize>() * 8)` (threading.rs:70). -/
def bit_idx (core_id : ℕ) : ℕ := core_id % usizeBits

/-- Mask-building step of the Linux `pin_to_logical_processor`
(threading.rs:67-73): `bitmask[usize_idx] |= 1 << bit_idx`, with Rust's
panic on an out-of-bounds array index modelled as an error. -/
def buildAffinityMask (core_id : ℕ) : Except String (List ℕ) :=
  let bitmask := List.replicate bitmaskLen 0
  if h : usize_idx core_id < bitmask.length then
    .ok (bitmask.set (usize_idx core_id)
      ((bitmask.get ⟨usize_idx core_id, h⟩) ||| (1 <<< bit_idx core_id)))
  else .error "index out of bounds"

theorem M64_pos : 0 < M64 := by norm_num [M64]

theorem applyEvent_enter (s : Statistics) :
    applyEvent s Event.enter = ⟨s.vm_cycles, (s.workers + 1) % M64⟩ := rfl

theorem applyEvent_exitW (s : Statistics) :
    applyEvent s Event.exitWorker =
      ⟨s.vm_cycles, (s.workers + (M64 - 1)) % M64⟩ := rfl

theorem applyEvent_add (s : Statistics) (c : ℕ) :
    applyEvent s (Event.addCycles c) =
      ⟨(s.vm_cycles + c) % M64, s.workers⟩ := rfl

theorem applyEvent_workers (s : Statistics) (e : Event) (hs : s.workers < M64) :
    (applyEvent s e).workers = (s.workers + workerDelta e) % M64 := by
  cases e with
  | enter => rw [applyEvent_enter]; rfl
  | exitWorker => rw [applyEvent_exitW]; rfl
  | addCycles c =>
      rw [applyEvent_add]
      show s.workers = (s.workers + 0) % M64
      rw [Nat.add_zero, Nat.mod_eq_of_lt hs]

theorem applyEvent_vm (s : Statistics) (e : Event) (hs : s.vm_cycles < M64) :
    (applyEvent s e).vm_cycles = (s.vm_cycles + cycleDelta e) % M64 := by
  cases e with
  | enter =>
      rw [applyEvent_enter]
      show s.vm_cycles = (s.vm_cycles + 0) % M64
      rw [Nat.add_zero, Nat.mod_eq_of_lt hs]
  | exitWorker =>
      rw [applyEvent_exitW]
      show s.vm_cycles = (s.vm_cycles + 0) % M64
      rw [Nat.add_zero, Nat.mod_eq_of_lt hs]
  | addCycles c => rw [applyEvent_add]; rfl

theorem runEvents_workers (evs : List Event) (s : Statistics)
    (hs : s.workers < M64) :
    (runEvents s evs).workers = (s.workers + (evs.map workerDelta).sum) % M64 := by
  induction evs generalizing s with
  | nil => simp [runEvents, Nat.mod_eq_of_lt hs]
  | cons e rest ih =>
      have h1 : (applyEvent s e).workers = (s.workers + workerDelta e) % M64 :=
        applyEvent_workers s e hs
      have h2 : (applyEvent s e).workers < M64 := by
        rw [h1]; exact Nat.mod_lt _ M64_pos
      calc (runEvents s (e :: rest)).workers
          = (runEvents (applyEvent s e) rest).workers := rfl
        _ = ((applyEvent s e).workers + (rest.map workerDelta).sum) % M64 := ih _ h2
        _ = ((s.workers + workerDelta e) % M64 + (rest.map workerDelta).sum) % M64 := by
              rw [h1]
        _ = (s.workers + ((e :: rest).map workerDelta).sum) % M64 := by
              rw [Nat.mod_add_mod]
              simp [Nat.add_assoc]

theorem runEvents_vm (evs : List Event) (s : Statistics)
    (hs : s.vm_cycles < M64) :
    (runEvents s evs).vm_cycles = (s.vm_cycles + (evs.map cycleDelta).sum) % M64 := by
  induction evs generalizing s with
  | nil => simp [runEvents, Nat.mod_eq_of_lt hs]
  | cons e rest ih =>
      have h1 : (applyEvent s e).vm_cycles = (s.vm_cycles + cycleDelta e) % M64 :=
        applyEvent_vm s e hs
      have h2 : (applyEvent s e).vm_cycles < M64 := by
        rw [h1]; exact Nat.mod_lt _ M64_pos
      calc (runEvents s (e :: rest)).vm_cycles
          = (runEvents (applyEvent s e) rest).vm_cycles := rfl
        _ = ((applyEvent s e).vm_cycles + (rest.map cycleDelta).sum) % M64 := ih _ h2
        _ = ((s.vm_cycles + cycleDelta e) % M64 + (rest.map cycleDelta).sum) % M64 := by
              rw [h1]
        _ = (s.vm_cycles + ((e :: rest).map cycleDelta).sum) % M64 := by
              rw [Nat.mod_add_mod]
              simp [Nat.add_assoc]

theorem map_sum_perm (f : Event → ℕ) {evs evs' : List Event}
    (h : List.Perm evs evs') : (evs.map f).sum = (evs'.map f).sum :=
  List.Perm.sum_eq (List.Perm.map f h)

theorem workerTrace_delta_sum (trials : List ℕ) :
    ((workerTrace trials).map workerDelta).sum = M64 := by
  have h := M64_pos
  induction trials with
  | nil =>
      simp only [workerTrace, List.map_nil, List.nil_append, List.map_cons,
        List.sum_cons, workerDelta, List.sum_nil]
      omega
  | cons a t ih =>
      simp only [workerTrace, List.map_cons, List.cons_append, List.sum_cons,
        workerDelta] at ih ⊢
      omega

theorem workerTrace_cycle_sum (trials : List ℕ) :
    ((workerTrace trials).map cycleDelta).sum = trials.sum := by
  induction trials with
  | nil =>
      simp only [workerTrace, List.map_nil, List.nil_append, List.map_cons,
        List.sum_cons, cycleDelta, List.sum_nil]
      omega
  | cons a t ih =>
      simp only [workerTrace, List.map_cons, List.cons_append, List.sum_cons,
        cycleDelta] at ih ⊢
      omega

theorem config_delta_sum (trialss : List (List ℕ)) :
    (((trialss.map workerTrace).flatten).map workerDelta).sum
      = trialss.length * M64 := by
  induction trialss with
  | nil => simp
  | cons t ts ih =>
      simp only [List.map_cons, List.flatten_cons, List.map_append,
        List.sum_append, ih, workerTrace_delta_sum, List.length_cons]
      rw [Nat.succ_mul, Nat.add_comm]

theorem config_cycle_sum (trialss : List (List ℕ)) :
    (((trialss.map workerTrace).flatten).map cycleDelta).sum
      = trialss.flatten.sum := by
  induction trialss with
  | nil => simp
  | cons t ts ih =>
      simp only [List.map_cons, List.flatten_cons, List.map_append,
        List.sum_append, ih, workerTrace_cycle_sum]

theorem default_workers_lt : (Statistics.default).workers < M64 := M64_pos

theorem default_vm_lt : (Statistics.default).vm_cycles < M64 := M64_pos

/-- C2: for a completed configuration — i.e. any interleaving (permutation)
of the shared-memory traces of the `n` worker processes, each of which
increments `workers` on entry and decrements it on exit — the `workers`
counter read by the top-level process after the join is exactly zero, the
post-join `assert!(workers == 0)` passes, and a nonzero residual makes that
assert abort the run. -/
theorem workers_zero_after_join (n : ℕ) (trialss : List (List ℕ))
    (evs : List Event) (hn : trialss.length = n)
    (hsched : List.Perm evs ((trialss.map workerTrace).flatten)) :
    (runEvents Statistics.default evs).workers = 0 ∧
    workersCheck (runEvents Statistics.default evs) = Except.ok () ∧
    (∀ s : Statistics, s.workers ≠ 0 →
      workersCheck s = Except.error "assertion failed: workers == 0") := by
  have hrun := runEvents_workers evs Statistics.default default_workers_lt
  have hsum : (evs.map workerDelta).sum = n * M64 := by
    rw [map_sum_perm workerDelta hsched, config_delta_sum, hn]
  have h0 : (Statistics.default).workers = 0 := rfl
  have hw : (runEvents Statistics.default evs).workers = 0 := by
    rw [hrun, h0, hsum, Nat.zero_add, Nat.mul_mod_left]
  refine ⟨hw, ?_, ?_⟩
  · simp only [workersCheck, hw, if_pos]
  · intro s hs
    simp only [workersCheck, if_neg hs]

/-- Witness for C2 at a concrete completed configuration: two workers, the
first running one trial of 5 cycles, the second two trials of 7 and 9. -/
theorem workers_zero_after_join_witness :
    ([[5], [7, 9]] : List (List ℕ)).length = 2 ∧
    (runEvents Statistics.default
      (((([[5], [7, 9]] : List (List ℕ))).map workerTrace).flatten)).workers
        = 0 :=
  ⟨rfl, (workers_zero_after_join 2 [[5], [7, 9]] _ rfl (List.Perm.refl _)).1⟩

/-- C7: starting from a reset region (`vm_cycles = 0`), a configuration
whose trial sub-processes report the fixed elapsed value `E` for `K` trials
in total accumulates exactly `E * K` in `vm_cycles`, for any interleaving of
the workers' atomic events, provided `E * K` fits in the `u64` accumulator. -/
theorem vm_cycles_accumulator (E K : ℕ) (trialss : List (List ℕ))
    (evs : List Event)
    (hsched : List.Perm evs ((trialss.map workerTrace).flatten))
    (htrials : trialss.flatten = List.replicate K E)
    (hEK : E * K < M64) :
    (runEvents Statistics.default evs).vm_cycles = E * K := by
  have hrun := runEvents_vm evs Statistics.default default_vm_lt
  have hsum : (evs.map cycleDelta).sum = E * K := by
    rw [map_sum_perm cycleDelta hsched, config_cycle_sum, htrials,
      List.sum_replicate, smul_eq_mul, Nat.mul_comm]
  have h0 : (Statistics.default).vm_cycles = 0 := rfl
  rw [hrun, h0, hsum, Nat.zero_add, Nat.mod_eq_of_lt hEK]

theorem pairLT_total (p q : ℕ × ℕ) (h1 : ¬ pairLT p q) (h2 : p ≠ q) :
    pairLT q p := by
  rw [Ne, Prod.ext_iff] at h2
  simp only [pairLT] at h1 ⊢
  omega

theorem pairLT_trans {p q r : ℕ × ℕ} (h1 : pairLT p q) (h2 : pairLT q r) :
    pairLT p r := by
  simp only [pairLT] at h1 h2 ⊢
  omega

theorem pairLT_ne {p q : ℕ × ℕ} (h : pairLT p q) : p ≠ q := by
  intro he
  subst he
  simp only [pairLT] at h
  omega

theorem mem_insertPair {q p : ℕ × ℕ} :
    ∀ {l : List (ℕ × ℕ)}, q ∈ insertPair p l → q = p ∨ q ∈ l := by
  intro l
  induction l with
  | nil =>
      intro h
      simp only [insertPair, List.mem_singleton] at h
      exact Or.inl h
  | cons a rest ih =>
      intro h
      simp only [insertPair] at h
      by_cases h1 : pairLT p a
      · rw [if_pos h1] at h
        rcases List.mem_cons.mp h with h' | h'
        · exact Or.inl h'
        · exact Or.inr h'
      · rw [if_neg h1] at h
        by_cases h2 : p = a
        · rw [if_pos h2] at h
          exact Or.inr h
        · rw [if_neg h2] at h
          rcases List.mem_cons.mp h with h' | h'
          · exact Or.inr (h' ▸ List.mem_cons_self a rest)
          · rcases ih h' with h'' | h''
            · exact Or.inl h''
            · exact Or.inr (List.mem_cons_of_mem a h'')

theorem pairwise_insertPair {p : ℕ × ℕ} :
    ∀ {l : List (ℕ × ℕ)}, l.Pairwise pairLT →
      (insertPair p l).Pairwise pairLT := by
  intro l
  induction l with
  | nil =>
      intro _
      simp [insertPair]
  | cons a rest ih =>
      intro h
      rcases List.pairwise_cons.mp h with ⟨ha, hrest⟩
      simp only [insertPair]
      by_cases h1 : pairLT p a
      · rw [if_pos h1]
        refine List.pairwise_cons.mpr ⟨?_, h⟩
        intro b hb
        rcases List.mem_cons.mp hb with h' | h'
        · exact h' ▸ h1
        · exact pairLT_trans h1 (ha b h')
      · rw [if_neg h1]
        by_cases h2 : p = a
        · rw [if_pos h2]
          exact h
        · rw [if_neg h2]
          refine List.pairwise_cons.mpr ⟨?_, ih hrest⟩
          intro b hb
          rcases mem_insertPair hb with h' | h'
          · exact h' ▸ pairLT_total p a h1 h2
          · exact ha b h'

theorem pairwise_foldInsert (l : List (ℕ × ℕ)) :
    ∀ acc : List (ℕ × ℕ), acc.Pairwise pairLT →
      (l.foldl (fun acc p => insertPair p acc) acc).Pairwise pairLT := by
  induction l with
  | nil => intro acc h; exact h
  | cons p rest ih =>
      intro acc h
      exact ih (insertPair p acc) (pairwise_insertPair h)

theorem mem_foldInsert {q : ℕ × ℕ} (l : List (ℕ × ℕ)) :
    ∀ acc : List (ℕ × ℕ),
      q ∈ l.foldl (fun acc p => insertPair p acc) acc →
      q ∈ acc ∨ q ∈ l := by
  induction l with
  | nil => intro acc h; exact Or.inl h
  | cons p rest ih =>
      intro acc h
      rcases ih (insertPair p acc) h with h' | h'
      · rcases mem_insertPair h' with h'' | h''
        · exact Or.inr (h'' ▸ List.mem_cons_self p rest)
        · exact Or.inl h''
      · exact Or.inr (List.mem_cons_of_mem p h')

theorem axisLoop_mem {scale : ℚ} {maxV : ℕ} (hscale : 1 ≤ scale) :
    ∀ (fuel : ℕ) (v : ℚ), 1 ≤ v →
      ∀ x ∈ axisLoop scale maxV fuel v, 1 ≤ x ∧ x < maxV := by
  intro fuel
  induction fuel with
  | zero => intro v _ x hx; simp [axisLoop] at hx
  | succ fuel ih =>
      intro v hv x hx
      simp only [axisLoop] at hx
      by_cases hguard : ⌊v⌋₊ < maxV
      · rw [if_pos hguard] at hx
        rcases List.mem_cons.mp hx with h' | h'
        · subst h'
          refine ⟨Nat.le_floor ?_, hguard⟩
          push_cast
          exact hv
        · have hv' : (1:ℚ) ≤ v * scale := by
            calc (1:ℚ) = 1 * 1 := by norm_num
            _ ≤ v * scale :=
              mul_le_mul hv hscale zero_le_one (zero_le_one.trans hv)
          exact ih (v * scale) hv' x h'
      · rw [if_neg hguard] at hx
        simp at hx

theorem buildTests_pairwise (thrscale wlscale : ℚ)
    (maxT maxW fuelT fuelW : ℕ) :
    (buildTests thrscale wlscale maxT maxW fuelT fuelW).Pairwise pairLT :=
  pairwise_foldInsert _ [] List.Pairwise.nil

theorem buildTests_mem {thrscale wlscale : ℚ} (maxT maxW fuelT fuelW : ℕ)
    (hts : 1 ≤ thrscale) (hws : 1 ≤ wlscale) :
    ∀ p ∈ buildTests thrscale wlscale maxT maxW fuelT fuelW,
      (1 ≤ p.1 ∧ p.1 < maxT) ∧ (1 ≤ p.2 ∧ p.2 < maxW) := by
  intro p hp
  rcases mem_foldInsert _ [] hp with h | h
  · simp at h
  · simp only [List.mem_flatten, List.mem_map] at h
    obtain ⟨_, ⟨t, ht, rfl⟩, hp2⟩ := h
    obtain ⟨w, hw, rfl⟩ := List.mem_map.mp hp2
    exact ⟨axisLoop_mem hts fuelT 1 le_rfl t ht,
      axisLoop_mem hws fuelW 1 le_rfl w hw⟩

/-- C1: for any valid configuration — per-axis multiplicative steps at least
one, as `MAX ** (1 / SAMPLES)` is for every `MAX ≥ 1` — the generated test
matrix is duplicate-free, its iteration order is strictly ascending in the
lexicographic order on (thread_count, workload_size), every thread count
lies in `[1, maxT)` and every workload size lies in `[1, maxW)`. -/
theorem test_matrix_sorted_bounded (thrscale wlscale : ℚ)
    (maxT maxW fuelT fuelW : ℕ) (hts : 1 ≤ thrscale) (hws : 1 ≤ wlscale) :
    (buildTests thrscale wlscale maxT maxW fuelT fuelW).Nodup ∧
    (buildTests thrscale wlscale maxT maxW fuelT fuelW).Pairwise pairLT ∧
    ∀ p ∈ buildTests thrscale wlscale maxT maxW fuelT fuelW,
      (1 ≤ p.1 ∧ p.1 < maxT) ∧ (1 ≤ p.2 ∧ p.2 < maxW) := by
  have hpw := buildTests_pairwise thrscale wlscale maxT maxW fuelT fuelW
  exact ⟨hpw.imp pairLT_ne, hpw, buildTests_mem maxT maxW fuelT fuelW hts hws⟩

theorem axisLoop_succ (scale : ℚ) (maxV fuel : ℕ) (value : ℚ) :
    axisLoop scale maxV (fuel + 1) value =
      if ⌊value⌋₊ < maxV then
        ⌊value⌋₊ :: axisLoop scale maxV fuel (value * scale)
      else [] := rfl

/-- Witness for C1 at the concrete configuration of C5: steps 2 and 10,
maxima 4 and 100, ample fuel. -/
theorem test_matrix_sorted_bounded_witness :
    (1:ℚ) ≤ 2 ∧ (1:ℚ) ≤ 10 ∧
    ((buildTests 2 10 4 100 10 10).Nodup ∧
     (buildTests 2 10 4 100 10 10).Pairwise pairLT ∧
     ∀ p ∈ buildTests 2 10 4 100 10 10,
       (1 ≤ p.1 ∧ p.1 < 4) ∧ (1 ≤ p.2 ∧ p.2 < 100)) :=
  ⟨by norm_num, by norm_num,
    test_matrix_sorted_bounded 2 10 4 100 10 10 (by norm_num) (by norm_num)⟩

/-- C5: at the literal inputs `max_threads = 4, thread_samples = 2,
max_workload = 100, workload_samples = 2` the per-axis steps are
`4 ** (1/2) = 2` and `100 ** (1/2) = 10` (both exact, also in `f64`), and
the generator produces exactly the cross product {1, 2} × {1, 10}, in
ascending order; any fuel of at least 3 lets both while loops run to their
natural termination. -/
theorem test_matrix_example (fuelT fuelW : ℕ) (hT : 3 ≤ fuelT)
    (hW : 3 ≤ fuelW) :
    buildTests 2 10 4 100 fuelT fuelW =
      [(1, 1), (1, 10), (2, 1), (2, 10)] := by
  obtain ⟨a, rfl⟩ : ∃ a, fuelT = a + 3 := ⟨fuelT - 3, by omega⟩
  obtain ⟨b, rfl⟩ : ∃ b, fuelW = b + 3 := ⟨fuelW - 3, by omega⟩
  have hA : axisLoop 2 4 (a + 3) 1 = [1, 2] := by
    have s1 : axisLoop 2 4 (a + 3) 1 =
        if ⌊(1:ℚ)⌋₊ < 4 then
          ⌊(1:ℚ)⌋₊ :: axisLoop 2 4 (a + 2) (1 * 2)
        else [] :=
      axisLoop_succ 2 4 (a + 2) 1
    have s2 : axisLoop 2 4 (a + 2) 2 =
        if ⌊(2:ℚ)⌋₊ < 4 then
          ⌊(2:ℚ)⌋₊ :: axisLoop 2 4 (a + 1) (2 * 2)
        else [] :=
      axisLoop_succ 2 4 (a + 1) 2
    have s3 : axisLoop 2 4 (a + 1) 4 =
        if ⌊(4:ℚ)⌋₊ < 4 then
          ⌊(4:ℚ)⌋₊ :: axisLoop 2 4 a (4 * 2)
        else [] :=
      axisLoop_succ 2 4 a 4
    rw [s1]
    norm_num
    rw [s2]
    norm_num
    rw [s3]
    norm_num
  have hB : axisLoop 10 100 (b + 3) 1 = [1, 10] := by
    have s1 : axisLoop 10 100 (b + 3) 1 =
        if ⌊(1:ℚ)⌋₊ < 100 then
          ⌊(1:ℚ)⌋₊ :: axisLoop 10 100 (b + 2) (1 * 10)
        else [] :=
      axisLoop_succ 10 100 (b + 2) 1
    have s2 : axisLoop 10 100 (b + 2) 10 =
        if ⌊(10:ℚ)⌋₊ < 100 then
          ⌊(10:ℚ)⌋₊ :: axisLoop 10 100 (b + 1) (10 * 10)
        else [] :=
      axisLoop_succ 10 100 (b + 1) 10
    have s3 : axisLoop 10 100 (b + 1) 100 =
        if ⌊(100:ℚ)⌋₊ < 100 then
          ⌊(100:ℚ)⌋₊ :: axisLoop 10 100 b (100 * 10)
        else [] :=
      axisLoop_succ 10 100 b 100
    rw [s1]
    norm_num
    rw [s2]
    norm_num
    rw [s3]
    norm_num
  simp only [buildTests, hA, hB]
  decide

/-- Witness for C5 at the least sufficient fuel. -/
theorem test_matrix_example_witness :
    3 ≤ 3 ∧
    buildTests 2 10 4 100 3 3 = [(1, 1), (1, 10), (2, 1), (2, 10)] :=
  ⟨by norm_num, test_matrix_example 3 3 (by norm_num) (by norm_num)⟩

/-- Witness for C7: two workers whose trials report `E = 5` cycles each,
`K = 3` trials in total, accumulate exactly `15`. -/
theorem vm_cycles_accumulator_witness :
    ([[5, 5], [5]] : List (List ℕ)).flatten = List.replicate 3 5 ∧
    5 * 3 < M64 ∧
    (runEvents Statistics.default
      (((([[5, 5], [5]] : List (List ℕ))).map workerTrace).flatten)).vm_cycles
        = 5 * 3 :=
  ⟨rfl, by norm_num [M64],
    vm_cycles_accumulator 5 3 [[5, 5], [5]] _ (List.Perm.refl _) rfl
      (by norm_num [M64])⟩

/-- C3, behaviour of the code at the fork error sentinel: the top-level
worker fork's `assert!(child != -1)` aborts the run on `-1`, but the
per-trial fork's check is `assert!(subchild != 1)`, which `-1` passes, so a
failed trial fork is not treated as fatal and the worker continues. -/
theorem subfork_error_sentinel_not_fatal :
    forkAssertTop (-1) = false ∧ forkAssertSub (-1) = true := by decide

/-- C4: the emitted line of a test case is the thread count, the accounting
size `workload * 18` (the fixed per-iteration cost constant `16 + 2`), and
the metric `vm_cycles / (elapsed * thread_count)` with
`elapsed = end - start`, given that the cycle counter is monotone over the
configuration (`startC ≤ endC`) and the readings are `u64` values. -/
theorem emit_line_formula (num_threads workload : ℕ) (s : Statistics)
    (startC endC : ℕ) (h1 : startC ≤ endC) (h2 : endC < M64) :
    emitLine num_threads workload s startC endC =
      (num_threads, workload * 18,
        (s.vm_cycles : ℚ) /
          (((endC - startC : ℕ) : ℚ) * (num_threads : ℚ))) := by
  have hel : elapsedCycles endC startC = endC - startC := by
    have hM := M64_pos
    unfold elapsedCycles
    have he : endC + (M64 - startC) = (endC - startC) + M64 := by omega
    rw [he, Nat.add_mod_right, Nat.mod_eq_of_lt (by omega)]
  unfold emitLine
  rw [hel]

/-- Witness for C4: two threads, workload 3, 100 accumulated cycles,
timestamps 10 and 60. -/
theorem emit_line_formula_witness :
    10 ≤ 60 ∧ 60 < M64 ∧
    emitLine 2 3 ⟨100, 0⟩ 10 60 =
      (2, 3 * 18, (100 : ℚ) / (((60 - 10 : ℕ) : ℚ) * (2 : ℚ))) :=
  ⟨by norm_num, by norm_num [M64],
    emit_line_formula 2 3 ⟨100, 0⟩ 10 60 (by norm_num) (by norm_num [M64])⟩

/-- C6: `reset_shared_memory` overwrites any state of the region with the
zero-valued defaults (`vm_cycles = 0`, `workers = 0`), so the statistics a
configuration accumulates after a reset do not depend on what the previous
configuration left behind. -/
theorem reset_shared_memory_zeroes :
    (∀ s : Statistics,
      reset_shared_memory (some s) = Except.ok (⟨0, 0⟩ : Statistics)) ∧
    (∀ (s₁ s₂ : Statistics) (evs : List Event),
      Except.map (fun r => runEvents r evs) (reset_shared_memory (some s₁)) =
      Except.map (fun r => runEvents r evs) (reset_shared_memory (some s₂))) :=
  ⟨fun _ => rfl, fun _ _ _ => rfl⟩

/-- C9: `shared_memory()` aborts (`assert!(!sm.is_null())`) when called
before `create_shared_memory()` has stored a mapping — in particular in the
initial null state — and returns the created, default-initialized region
once `create_shared_memory()` has run. -/
theorem shared_memory_access :
    shared_memory initialSharedMemory =
      Except.error "assertion failed: !sm.is_null()" ∧
    (∀ sm : Option Statistics,
      shared_memory (create_shared_memory sm) =
        Except.ok Statistics.default) :=
  ⟨rfl, fun _ => rfl⟩

/-- C8 counterexample: the Linux enumeration, fed a readable
`/proc/cpuinfo` that contains no line starting with "processor", returns
normally with the empty sequence — it does not fail fatally on discovering
zero logical processors. -/
theorem get_logical_processors_empty_ok :
    get_logical_processors_linux (some ["flags : fpu".toList]) =
      Except.ok [] := by
  rfl

/-- C8 amended: the Windows enumeration checks `assert!(ret.len() >= 1)`,
so whenever it returns normally the descriptor list is non-empty; the Linux
enumeration performs no such check and can return normally with the empty
list. -/
theorem enumerate_nonempty_amended :
    (∀ (raw : ℕ → ℕ → Option ℕ) (l : List NumaInfo),
      get_logical_processors_windows raw = Except.ok l → l ≠ []) ∧
    (∃ lines : List (List Char),
      get_logical_processors_linux (some lines) = Except.ok []) := by
  constructor
  · intro raw l h
    rw [get_logical_processors_windows] at h
    split at h
    · simp only [Except.ok.injEq] at h
      subst h
      intro hnil
      simp [hnil] at *
    · simp at h
  · exact ⟨["flags : fpu".toList], by rfl⟩

/-- Witness for C8 (amended): in a probe environment where exactly one
processor exists, the Windows enumeration returns it, and the returned list
is non-empty. -/
theorem enumerate_nonempty_amended_witness :
    get_logical_processors_windows raw0 =
      Except.ok [(⟨0, 0, 0⟩ : NumaInfo)] ∧
    ([(⟨0, 0, 0⟩ : NumaInfo)] : List NumaInfo) ≠ [] :=
  ⟨by rfl, enumerate_nonempty_amended.1 raw0 [⟨0, 0, 0⟩] (by rfl)⟩

/-- C10: for every `core_id < 1024` the Linux `pin_to_logical_processor`
computes an in-bounds word index into its 1024-bit affinity mask and the
mask-building step succeeds; for `core_id ≥ 1024` the index is out of
bounds and the step panics; and the driver, whose matrix is generated with
`MAX_THREADS = 192`, only ever passes worker indices `thr_id < num_threads
< 192 < 1024`, so its calls always satisfy the precondition. -/
theorem pin_mask_index_bounds :
    (∀ core_id : ℕ, core_id < 1024 →
      usize_idx core_id < bitmaskLen ∧
      ∃ m, buildAffinityMask core_id = Except.ok m) ∧
    (∀ core_id : ℕ, 1024 ≤ core_id →
      ¬ usize_idx core_id < bitmaskLen ∧
      buildAffinityMask core_id = Except.error "index out of bounds") ∧
    (∀ (thrscale wlscale : ℚ) (fuelT fuelW : ℕ),
      1 ≤ thrscale → 1 ≤ wlscale →
      ∀ p ∈ buildTests thrscale wlscale 192 1000000 fuelT fuelW,
        ∀ thr_id, thr_id < p.1 →
          thr_id < 192 ∧ usize_idx thr_id < bitmaskLen) := by
  refine ⟨?_, ?_, ?_⟩
  · intro core_id hc
    have hidx : usize_idx core_id < bitmaskLen := by
      simp only [usize_idx, bitmaskLen, usizeBits]
      omega
    refine ⟨hidx, ?_⟩
    have hidx' : usize_idx core_id <
        (List.replicate bitmaskLen (0:ℕ)).length := by
      rw [List.length_replicate]
      exact hidx
    exact ⟨_, by rw [buildAffinityMask, dif_pos hidx']⟩
  · intro core_id hc
    have hidx : ¬ usize_idx core_id < bitmaskLen := by
      simp only [usize_idx, bitmaskLen, usizeBits]
      omega
    refine ⟨hidx, ?_⟩
    have hidx' : ¬ usize_idx core_id <
        (List.replicate bitmaskLen (0:ℕ)).length := by
      rw [List.length_replicate]
      exact hidx
    rw [buildAffinityMask, dif_neg hidx']
  · intro thrscale wlscale fuelT fuelW hts hws p hp thr_id hthr
    have hb := (buildTests_mem 192 1000000 fuelT fuelW hts hws p hp).1.2
    refine ⟨by omega, ?_⟩
    simp only [usize_idx, bitmaskLen, usizeBits]
    omega

/-- Witness for C10 at the largest worker index the driver can produce. -/
theorem pin_mask_index_bounds_witness :
    usize_idx 190 < bitmaskLen ∧
    ∃ m, buildAffinityMask 190 = Except.ok m :=
  pin_mask_index_bounds.1 190 (by norm_num)

end ForkBench
